import Mathlib

/-!
Verification of the artifact-discovery and function-resolution pipeline of
cargo-asm, as implemented in src/asm/mod.rs and src/build.rs.

The per-file parser (src/asm/parse.rs), the walkdir crate and the
edit_distance crate are external collaborators; they are embedded as
parameters (the per-file parser), as a tree walk (walkdir), and as the
textbook Levenshtein recursion (edit_distance).
-/

namespace CargoAsm

/-- The two-variant per-file parse outcome (`parse::ParseResult` in
src/asm/parse.rs, as used by src/asm/mod.rs): either the requested function
was found (opaque function representation plus file table), or it was not,
carrying the list of every function identifier enumerated in the file. -/
inductive ParseResult (ρ τ : Type) where
  | Found : ρ → τ → ParseResult ρ τ
  | NotFound : List String → ParseResult ρ τ
deriving DecidableEq

deriving instance DecidableEq for Except

/-- Rust `Vec::dedup`: removes consecutive repeated elements, keeping the
first of each run. -/
def dedupAdj {α : Type} [DecidableEq α] : List α → List α
  | [] => []
  | [a] => [a]
  | a :: b :: l => if a = b then dedupAdj (b :: l) else a :: dedupAdj (b :: l)

/-- Rust `<[String]>::sort` / `sort_unstable`: sorting in the total
lexicographic order on strings (Rust compares UTF-8 bytes, which agrees
with code-point lexicographic order on the character lists).  Both Rust
sorts produce the unique sorted permutation (string order is
antisymmetric), so a stable insertion sort is an exact model of either.
The comparison is phrased on `String.data` so that it evaluates inside the
kernel; `strLe_iff` identifies it with the string order. -/
def sortStr (l : List String) : List String :=
  l.insertionSort (fun a b => a.data ≤ b.data)

/-- The scan loop of `parse_files` (src/asm/mod.rs:43-53), with the
accumulated `function_table` explicit.  The `assert!(f.exists(), ..)` on
line 44 is modelled by the `fexists` check: a vanished file aborts the whole
invocation with a panic, embedded as `Except.error`. -/
def parse_files_loop {α ρ τ : Type} (fexists : α → Bool)
    (parse_one : α → ParseResult ρ τ) :
    List α → List String → Except String (ParseResult ρ τ)
  | [], function_table =>
      .ok (.NotFound (dedupAdj (sortStr function_table)))
  | f :: fs, function_table =>
      if fexists f then
        match parse_one f with
        | .Found function files => .ok (.Found function files)
        | .NotFound table => parse_files_loop fexists parse_one fs (function_table ++ table)
      else
        .error "path does not exist"

/-- `parse_files` (src/asm/mod.rs:30-57), non-debug path: scan the files in
order, short-circuit on the first `Found`, otherwise accumulate all
per-file tables, sort and dedup them. -/
def parse_files {α ρ τ : Type} (fexists : α → Bool)
    (parse_one : α → ParseResult ρ τ) (files : List α) :
    Except String (ParseResult ρ τ) :=
  parse_files_loop fexists parse_one files []

/-- A concrete per-file parser for witnesses: file 0 and file 1 both
contain the requested function (with different representations), any other
file only reports a catalog. -/
def exParse : Nat → ParseResult String Unit := fun n =>
  if n = 0 then .Found "asm of A" ()
  else if n = 1 then .Found "asm of B" ()
  else .NotFound ["a::x"]

/-- A concrete catalog-only parser for witnesses: file 0 reports the
catalog `["a::x", "b::y"]`, every other file reports `["a::x", "c::z"]`. -/
def exParseNF : Nat → ParseResult String Unit := fun n =>
  if n = 0 then .NotFound ["a::x", "b::y"] else .NotFound ["a::x", "c::z"]

/-- The per-file catalogs of `exParseNF`, as a function. -/
def exTbl : Nat → List String := fun n =>
  if n = 0 then ["a::x", "b::y"] else ["a::x", "c::z"]

/-- Rust `str::split(sep)` over the character list: `""` splits to `[""]`,
adjacent separators produce empty pieces, a trailing separator produces a
final empty piece. -/
def splitChars (sep : Char) : List Char → List (List Char)
  | [] => [[]]
  | c :: cs =>
      if c = sep then [] :: splitChars sep cs
      else
        match splitChars sep cs with
        | [] => [[c]]
        | p :: ps => (c :: p) :: ps

/-- `s.split(':').next_back()` (src/asm/mod.rs lines 92, 94, 95, 101): the
last piece of the split, as an `Option` — the Rust code unwraps it. -/
def nextBack (s : String) : Option (List Char) :=
  (splitChars ':' s.data).getLast?

/-- The trailing component the ranking code actually works with: the
unwrap of `nextBack`, total by `split_next_back_total`. -/
def lastComp (s : String) : List Char :=
  (nextBack s).getD []

/-- Levenshtein edit distance on character lists, the function computed by
the external `edit_distance` crate: minimum number of single-character
insertions, deletions and substitutions. -/
def levenshtein : List Char → List Char → Nat
  | [], ys => ys.length
  | x :: xs, [] => (x :: xs).length
  | x :: xs, y :: ys =>
      if x = y then levenshtein xs ys
      else
        1 + min (levenshtein xs (y :: ys)) (min (levenshtein (x :: xs) ys) (levenshtein xs ys))
termination_by xs ys => xs.length + ys.length
decreasing_by all_goals simp_arith

/-- `edit_distance(f.split(':').next_back().unwrap(), last_path)`
(src/asm/mod.rs:94-95,101): distance from a catalog entry's trailing
component to the query's trailing component. -/
def distTo (last_path : List Char) (f : String) : Nat :=
  levenshtein (lastComp f) last_path

/-- The comparator passed to `table.sort_by` (src/asm/mod.rs:93-96):
compare entries by their edit distance to the query's trailing
component. -/
def distLe (last_path : List Char) (a b : String) : Prop :=
  distTo last_path a ≤ distTo last_path b

instance distLe_dec (last_path : List Char) : DecidableRel (distLe last_path) :=
  fun _ _ => Nat.decLe _ _

/-- The suggestion list of `run` (src/asm/mod.rs:91-109): stable-sort the
catalog by edit distance of trailing components to the query's trailing
component, then keep the leading entries with distance at most 4. -/
def suggestions (path : String) (table : List String) : List String :=
  (table.insertionSort (distLe (lastComp path))).takeWhile
    (fun f => distTo (lastComp path) f ≤ 4)

mutual
/-- A node of the output directory tree, carrying the stem and extension
of its file name as the predicate will observe them (`Option`, since a
component may be absent or not representable as text), and whether it is a
regular file or a directory. -/
inductive DirEntry : Type where
  | file (stem ext : Option String) : DirEntry
  | dir (stem ext : Option String) (children : Forest) : DirEntry
/-- The children of a directory. -/
inductive Forest : Type where
  | fnil : Forest
  | fcons (hd : DirEntry) (tl : Forest) : Forest
end

/-- `Path::file_stem` composed with `to_str`, as observed on a node. -/
def DirEntry.stemOf : DirEntry → Option String
  | .file s _ => s
  | .dir s _ _ => s

/-- `Path::extension` composed with `to_str`, as observed on a node. -/
def DirEntry.extOf : DirEntry → Option String
  | .file _ e => e
  | .dir _ e _ => e

/-- Whether the node is a regular file (as opposed to a directory). -/
def DirEntry.isFile : DirEntry → Bool
  | .file _ _ => true
  | .dir _ _ _ => false

mutual
/-- The walkdir crate's iterator over an existing root: depth-first,
yielding every entry under (and including) the root — directories as well
as regular files. -/
def walkdir : DirEntry → List DirEntry
  | .file s e => [.file s e]
  | .dir s e cs => .dir s e cs :: walkForest cs
/-- `walkdir` over a directory's children, in order. -/
def walkForest : Forest → List DirEntry
  | .fnil => []
  | .fcons c cs => walkdir c ++ walkForest cs
end

mutual
/-- The number of entries in a tree (root included). -/
def countEntries : DirEntry → Nat
  | .file _ _ => 1
  | .dir _ _ cs => 1 + countForest cs
/-- The number of entries in a forest. -/
def countForest : Forest → Nat
  | .fnil => 0
  | .fcons c cs => countEntries c + countForest cs
end

/-- The entry loop of `scan_directory` (src/build.rs:178-197): iterate over
the walkdir entries, panic (`Except.error`) on an `Err` entry, otherwise
apply the predicate to the entry's stem and extension and push matching
paths.  Note the predicate is applied to every walked entry, directories
included. -/
def scan_directory_loop (predicate : Option String → Option String → Bool) :
    List (Except String DirEntry) → List DirEntry → Except String (List DirEntry)
  | [], output_files => .ok output_files
  | .error _ :: _, _ => .error "failed to iterate over the directory"
  | .ok e :: rest, output_files =>
      scan_directory_loop predicate rest
        (if predicate e.stemOf e.extOf then output_files ++ [e] else output_files)

/-- `scan_directory` (src/build.rs:174-198) over the iterator's entries. -/
def scan_directory (entries : List (Except String DirEntry))
    (predicate : Option String → Option String → Bool) :
    Except String (List DirEntry) :=
  scan_directory_loop predicate entries []

/-- The walkdir iterator on a root that may not exist, modelling the
external walkdir crate: a nonexistent root produces a single `Err` entry
(which `scan_directory` turns into a panic); an existing root produces all
of its entries. -/
def rootEntries : Option DirEntry → List (Except String DirEntry)
  | none => [.error "root does not exist"]
  | some t => (walkdir t).map .ok

/-- A root directory (named `deps`) containing a single subdirectory whose
name `d.s` has extension `s`: a directory that matches the assembly-file
predicate. -/
def exTree : DirEntry :=
  .dir (some "deps") none (.fcons (.dir (some "d") (some "s") .fnil) .fnil)

/-- The post-processing of `project` (src/build.rs:157-170): merge the
primary "deps" scan with the (possibly empty) example scan, canonicalize
every path except on Windows, sort, dedup.  Paths are modelled as strings
and `canonicalize` as a function supplied by the platform. -/
def project_post (windows : Bool) (canon : String → String)
    (primary secondary : List String) : List String :=
  dedupAdj (sortStr
    (if windows then primary ++ secondary else (primary ++ secondary).map canon))

/-- A concrete canonicalization for witnesses: resolves the relative
spellings of `a` and `b` to absolute ones. -/
def exCanon : String → String := fun s =>
  if s = "./a" then "/r/a" else if s = "./b" then "/r/b" else s

theorem strLe_iff (a b : String) : a.data ≤ b.data ↔ a ≤ b := by
  rw [String.le_iff_toList_le]
  exact Iff.rfl

theorem strLt_iff (a b : String) : a.data < b.data ↔ a < b := by
  rw [String.lt_iff_toList_lt]
  exact Iff.rfl

theorem mem_dedupAdj {α : Type} [DecidableEq α] (x : α) :
    ∀ l : List α, x ∈ dedupAdj l ↔ x ∈ l
  | [] => Iff.rfl
  | [a] => Iff.rfl
  | a :: b :: l => by
      by_cases h : a = b
      · subst h
        rw [dedupAdj, if_pos rfl]
        rw [mem_dedupAdj x (a :: l)]
        simp
      · rw [dedupAdj, if_neg h]
        simp only [List.mem_cons]
        rw [mem_dedupAdj x (b :: l)]
        simp [List.mem_cons]

theorem dedupAdj_pairwise {α : Type} [LinearOrder α] [DecidableEq α] :
    ∀ {l : List α}, l.Pairwise (· ≤ ·) → (dedupAdj l).Pairwise (· < ·)
  | [], _ => List.Pairwise.nil
  | [a], _ => by simp [dedupAdj]
  | a :: b :: l, h => by
      rcases List.pairwise_cons.mp h with ⟨ha, hb⟩
      by_cases hab : a = b
      · subst hab
        rw [dedupAdj, if_pos rfl]
        exact dedupAdj_pairwise hb
      · rw [dedupAdj, if_neg hab]
        refine List.pairwise_cons.mpr ⟨?_, dedupAdj_pairwise hb⟩
        intro x hx
        have hxmem : x ∈ b :: l := (mem_dedupAdj x (b :: l)).mp hx
        have hab_lt : a < b := lt_of_le_of_ne (ha b (List.mem_cons_self b l)) hab
        rcases List.mem_cons.mp hxmem with hxb | hxl
        · exact hxb ▸ hab_lt
        · exact lt_of_lt_of_le hab_lt (List.rel_of_pairwise_cons hb hxl)

theorem sortStr_perm (l : List String) : (sortStr l).Perm l :=
  List.perm_insertionSort _ l

theorem sortStr_sorted (l : List String) : (sortStr l).Pairwise (· ≤ ·) := by
  haveI : IsTotal String (fun a b : String => a.data ≤ b.data) :=
    ⟨fun a b => le_total a.data b.data⟩
  haveI : IsTrans String (fun a b : String => a.data ≤ b.data) :=
    ⟨fun _ _ _ h1 h2 => le_trans h1 h2⟩
  exact (List.sorted_insertionSort _ l).imp (fun h => (strLe_iff _ _).mp h)

theorem sortStr_eq_of_perm {l₁ l₂ : List String} (h : l₁.Perm l₂) :
    sortStr l₁ = sortStr l₂ :=
  List.eq_of_perm_of_sorted ((sortStr_perm l₁).trans (h.trans (sortStr_perm l₂).symm))
    (sortStr_sorted l₁) (sortStr_sorted l₂)

theorem parse_files_loop_found {α ρ τ : Type} (fexists : α → Bool)
    (parse_one : α → ParseResult ρ τ) (pre : List α) (a : α) (post : List α)
    (r : ρ) (t : τ)
    (hpre : ∀ f ∈ pre, fexists f = true ∧ ∃ tbl, parse_one f = .NotFound tbl)
    (ha : fexists a = true) (hfound : parse_one a = .Found r t) :
    ∀ acc, parse_files_loop fexists parse_one (pre ++ a :: post) acc = .ok (.Found r t) := by
  induction pre with
  | nil =>
      intro acc
      simp only [List.nil_append, parse_files_loop, ha, if_true, hfound]
  | cons f fs ih =>
      intro acc
      have hf := hpre f (List.mem_cons_self f fs)
      obtain ⟨tbl, htbl⟩ := hf.2
      simp only [List.cons_append, parse_files_loop, hf.1, if_true, htbl]
      exact ih (fun g hg => hpre g (List.mem_cons_of_mem f hg)) (acc ++ tbl)

theorem parse_files_loop_notfound {α ρ τ : Type} (fexists : α → Bool)
    (parse_one : α → ParseResult ρ τ) (tbl : α → List String) (files : List α) :
    ∀ acc : List String,
      (∀ f ∈ files, fexists f = true ∧ parse_one f = .NotFound (tbl f)) →
      parse_files_loop fexists parse_one files acc =
        .ok (.NotFound (dedupAdj (sortStr (acc ++ files.flatMap tbl)))) := by
  induction files with
  | nil =>
      intro acc _
      simp [parse_files_loop]
  | cons f fs ih =>
      intro acc h
      have hf := h f (List.mem_cons_self f fs)
      simp only [parse_files_loop, hf.1, if_true, hf.2]
      rw [ih (acc ++ tbl f) (fun g hg => h g (List.mem_cons_of_mem f hg))]
      rw [List.flatMap_cons, List.append_assoc]

/-- C1: scanning the files in order, the first file whose per-file parse
yields a `Found` outcome terminates the scan immediately with that file's
result; the returned value does not depend on the files after it (so for
files `[A, B]` both containing the function, A's representation is
returned and B's parse never influences the result). -/
theorem parse_files_short_circuit {α ρ τ : Type} (fexists : α → Bool)
    (parse_one : α → ParseResult ρ τ) (pre post : List α) (a : α) (r : ρ) (t : τ)
    (hpre : ∀ f ∈ pre, fexists f = true ∧ ∃ tbl, parse_one f = .NotFound tbl)
    (ha : fexists a = true) (hfound : parse_one a = .Found r t) :
    parse_files fexists parse_one (pre ++ a :: post) = .ok (.Found r t) :=
  parse_files_loop_found fexists parse_one pre a post r t hpre ha hfound []

theorem parse_files_short_circuit_witness :
    parse_files (fun _ => true) exParse [0, 1] = .ok (.Found "asm of A" ()) :=
  parse_files_short_circuit (fun _ => true) exParse [] [1] 0 "asm of A" ()
    (by intro f hf; cases hf) rfl rfl

/-- C2: when no per-file parse yields `Found`, resolution over any two
permutations of the file set produces identical `Unresolved` catalogs: the
final catalog does not depend on the scan order. -/
theorem parse_files_order_independent {α ρ τ : Type} (fexists : α → Bool)
    (parse_one : α → ParseResult ρ τ) (tbl : α → List String)
    (files₁ files₂ : List α) (hperm : files₁.Perm files₂)
    (h : ∀ f ∈ files₁, fexists f = true ∧ parse_one f = .NotFound (tbl f)) :
    parse_files fexists parse_one files₁ = parse_files fexists parse_one files₂ := by
  have h₂ : ∀ f ∈ files₂, fexists f = true ∧ parse_one f = .NotFound (tbl f) :=
    fun f hf => h f (hperm.mem_iff.mpr hf)
  rw [parse_files, parse_files,
    parse_files_loop_notfound fexists parse_one tbl files₁ [] h,
    parse_files_loop_notfound fexists parse_one tbl files₂ [] h₂,
    List.nil_append, List.nil_append,
    sortStr_eq_of_perm (hperm.flatMap_right tbl)]

theorem parse_files_order_independent_witness :
    parse_files (fun _ => true) exParseNF [0, 1] =
      parse_files (fun _ => true) exParseNF [1, 0] :=
  parse_files_order_independent (fun _ => true) exParseNF exTbl [0, 1] [1, 0]
    (by decide) (by decide)

/-- C3: when no file yields `Found`, the final `Unresolved` catalog is the
concatenation of every scanned file's per-file catalog, sorted ascending
and with adjacent duplicates removed (full deduplication, since the list is
sorted first). -/
theorem parse_files_empty_query_catalog {α ρ τ : Type} (fexists : α → Bool)
    (parse_one : α → ParseResult ρ τ) (tbl : α → List String) (files : List α)
    (h : ∀ f ∈ files, fexists f = true ∧ parse_one f = .NotFound (tbl f)) :
    parse_files fexists parse_one files =
      .ok (.NotFound (dedupAdj (sortStr (files.flatMap tbl)))) := by
  rw [parse_files, parse_files_loop_notfound fexists parse_one tbl files [] h,
    List.nil_append]

theorem parse_files_empty_query_catalog_witness :
    parse_files (fun _ => true) exParseNF [0, 1] =
      .ok (.NotFound ["a::x", "b::y", "c::z"]) := by
  rw [parse_files_empty_query_catalog (fun _ => true) exParseNF exTbl [0, 1] (by decide)]
  decide

theorem parse_files_loop_notfound_shape {α ρ τ : Type} (fexists : α → Bool)
    (parse_one : α → ParseResult ρ τ) :
    ∀ (files : List α) (acc : List String) (cat : List String),
      parse_files_loop fexists parse_one files acc = .ok (.NotFound cat) →
      ∃ x, cat = dedupAdj (sortStr x)
  | [], acc, cat, h => by
      simp only [parse_files_loop, Except.ok.injEq, ParseResult.NotFound.injEq] at h
      exact ⟨acc, h.symm⟩
  | f :: fs, acc, cat, h => by
      rw [parse_files_loop] at h
      by_cases hex : fexists f = true
      · rw [if_pos hex] at h
        cases hp : parse_one f with
        | Found r t => rw [hp] at h; exact absurd h (by simp)
        | NotFound table =>
            rw [hp] at h
            exact parse_files_loop_notfound_shape fexists parse_one fs (acc ++ table) cat h
      · rw [if_neg hex] at h
        exact absurd h (by simp)

/-- C4: every catalog produced by resolution is strictly ascending in the
lexicographic string order and contains no duplicates, whatever overlapping
identifier sets the input files report. -/
theorem parse_files_catalog_invariant {α ρ τ : Type} (fexists : α → Bool)
    (parse_one : α → ParseResult ρ τ) (files : List α) (cat : List String)
    (h : parse_files fexists parse_one files = .ok (.NotFound cat)) :
    cat.Pairwise (· < ·) ∧ cat.Nodup := by
  obtain ⟨x, hx⟩ := parse_files_loop_notfound_shape fexists parse_one files [] cat h
  subst hx
  refine ⟨dedupAdj_pairwise (sortStr_sorted x), ?_⟩
  exact (dedupAdj_pairwise (sortStr_sorted x)).imp ne_of_lt

theorem parse_files_catalog_invariant_witness :
    (["a::x", "b::y", "c::z"] : List String).Pairwise (· < ·) ∧
      (["a::x", "b::y", "c::z"] : List String).Nodup :=
  parse_files_catalog_invariant (fun _ => true) exParseNF [0, 1]
    ["a::x", "b::y", "c::z"] (by decide)

theorem splitChars_ne_nil (sep : Char) : ∀ cs : List Char, splitChars sep cs ≠ []
  | [] => by simp [splitChars]
  | c :: cs => by
      by_cases h : c = sep
      · simp [splitChars, h]
      · cases hs : splitChars sep cs with
        | nil => simp [splitChars, h, hs]
        | cons p ps => simp [splitChars, h, hs]

theorem splitChars_of_not_mem (sep : Char) :
    ∀ cs : List Char, sep ∉ cs → splitChars sep cs = [cs]
  | [], _ => rfl
  | c :: cs, h => by
      have hc : ¬ c = sep := fun e => h (List.mem_cons.mpr (Or.inl e.symm))
      have ht : sep ∉ cs := fun hm => h (List.mem_cons.mpr (Or.inr hm))
      rw [splitChars, if_neg hc, splitChars_of_not_mem sep cs ht]

/-- C10: the trailing-component extraction is total — splitting any string
on the colon always has a last piece (the `unwrap` after `next_back` can
never panic), and a string containing no colon is its own trailing
component. -/
theorem split_next_back_total :
    (∀ s : String, (nextBack s).isSome = true) ∧
      (∀ s : String, (∀ c ∈ s.data, c ≠ ':') → nextBack s = some s.data) := by
  constructor
  · intro s
    rw [nextBack]
    cases h : (splitChars ':' s.data).getLast? with
    | some v => rfl
    | none => exact absurd (List.getLast?_eq_none_iff.mp h) (splitChars_ne_nil ':' s.data)
  · intro s h
    have hmem : ':' ∉ s.data := fun hm => h ':' hm rfl
    rw [nextBack, splitChars_of_not_mem ':' s.data hmem]
    rfl

theorem split_next_back_total_witness :
    (nextBack "a::b").isSome = true ∧ nextBack "pkg_f" = some "pkg_f".data :=
  ⟨split_next_back_total.1 "a::b", split_next_back_total.2 "pkg_f" (by decide)⟩

theorem takeWhile_eq_filter_of_pairwise {α : Type} {p : α → Bool} :
    ∀ {l : List α}, l.Pairwise (fun a b => p b = true → p a = true) →
      l.takeWhile p = l.filter p
  | [], _ => rfl
  | a :: l, h => by
      rcases List.pairwise_cons.mp h with ⟨ha, hl⟩
      cases hpa : p a
      · have hnil : l.filter p = [] := List.filter_eq_nil_iff.mpr (fun x hx hpx => by
          have := ha x hx hpx
          rw [hpa] at this
          exact Bool.false_ne_true this)
        simp [List.takeWhile_cons, List.filter_cons, hpa, hnil]
      · simp only [List.takeWhile_cons, List.filter_cons, hpa, if_true]
        rw [takeWhile_eq_filter_of_pairwise hl]

theorem pair_sublist_of_pairwise {α : Type} {r : α → α → Prop}
    (hasymm : ∀ x y, r x y → ¬ r y x) :
    ∀ {l : List α} {a b : α}, l.Pairwise r → a ∈ l → b ∈ l → r a b → [a, b].Sublist l
  | [], a, _, _, ha, _, _ => absurd ha (List.not_mem_nil a)
  | c :: t, a, b, hl, ha, hb, hr => by
      rcases List.pairwise_cons.mp hl with ⟨hc, ht⟩
      rcases List.mem_cons.mp ha with rfl | hat
      · rcases List.mem_cons.mp hb with rfl | hbt
        · exact (hasymm _ _ hr hr).elim
        · exact List.Sublist.cons₂ _ (List.singleton_sublist.mpr hbt)
      · rcases List.mem_cons.mp hb with rfl | hbt
        · exact ((hasymm _ _ hr) (hc _ hat)).elim
        · exact List.Sublist.cons c (pair_sublist_of_pairwise hasymm ht hat hbt hr)

theorem pair_sublist_nodup {α : Type} :
    ∀ {l : List α} {a b : α}, l.Nodup → [a, b].Sublist l → [b, a].Sublist l → a = b := by
  intro l
  induction l with
  | nil =>
      intro a b _ h1 _
      exact absurd (h1.subset (List.mem_cons_self a [b])) (List.not_mem_nil a)
  | cons c t ih =>
      intro a b hn h1 h2
      rcases List.nodup_cons.mp hn with ⟨hcnot, hnt⟩
      cases h1 with
      | cons _ h1t =>
          cases h2 with
          | cons _ h2t => exact ih hnt h1t h2t
          | cons₂ _ h2t => exact absurd (h1t.subset (by simp)) hcnot
      | cons₂ _ h1t =>
          cases h2 with
          | cons _ h2t => exact absurd (h2t.subset (by simp)) hcnot
          | cons₂ _ h2t => rfl

/-- C5: when a query was supplied and the outcome is `Unresolved`, the
suggestion list consists of exactly the catalog entries whose trailing
component is within Levenshtein distance 4 of the query's trailing
component (so it is empty when no entry is within the threshold), ranked
ascending by that distance with ties broken by the catalog's existing
lexicographic order. -/
theorem run_suggestions_ranking (path : String) (table : List String)
    (hcat : table.Pairwise (fun a b => a.data < b.data)) :
    (suggestions path table).Perm
        (table.filter (fun f => distTo (lastComp path) f ≤ 4)) ∧
      (suggestions path table).Pairwise (fun a b =>
        distTo (lastComp path) a < distTo (lastComp path) b ∨
          (distTo (lastComp path) a = distTo (lastComp path) b ∧ a < b)) := by
  have hcatS : table.Pairwise (· < ·) := hcat.imp (fun h => (strLt_iff _ _).mp h)
  have hS_sorted : (table.insertionSort (distLe (lastComp path))).Pairwise
      (distLe (lastComp path)) := by
    haveI : IsTotal String (distLe (lastComp path)) := ⟨fun a b => Nat.le_total _ _⟩
    haveI : IsTrans String (distLe (lastComp path)) :=
      ⟨fun _ _ _ h1 h2 => Nat.le_trans h1 h2⟩
    exact List.sorted_insertionSort (distLe (lastComp path)) table
  have hSperm : (table.insertionSort (distLe (lastComp path))).Perm table :=
    List.perm_insertionSort (distLe (lastComp path)) table
  have htw : suggestions path table =
      (table.insertionSort (distLe (lastComp path))).filter
        (fun f => distTo (lastComp path) f ≤ 4) := by
    rw [suggestions]
    exact takeWhile_eq_filter_of_pairwise (hS_sorted.imp
      (fun hab h4 => decide_eq_true (Nat.le_trans hab (of_decide_eq_true h4))))
  have hnodupT : table.Nodup := hcatS.imp (fun h => ne_of_lt h)
  have hnodupS : (table.insertionSort (distLe (lastComp path))).Nodup :=
    hSperm.symm.nodup hnodupT
  constructor
  · rw [htw]
    exact hSperm.filter (fun f => distTo (lastComp path) f ≤ 4)
  · have hSP : (table.insertionSort (distLe (lastComp path))).Pairwise (fun a b =>
        distTo (lastComp path) a < distTo (lastComp path) b ∨
          (distTo (lastComp path) a = distTo (lastComp path) b ∧ a < b)) := by
      rw [List.pairwise_iff_forall_sublist]
      intro a b hab_sub
      have hle : distLe (lastComp path) a b :=
        List.pairwise_iff_forall_sublist.mp hS_sorted hab_sub
      rcases Nat.lt_or_eq_of_le hle with hlt | heq
      · exact Or.inl hlt
      · have hab_ne : a ≠ b := by
          intro e
          subst e
          exact (List.pairwise_iff_forall_sublist.mp hnodupS hab_sub) rfl
        have haT : a ∈ table := hSperm.subset (hab_sub.subset (by simp))
        have hbT : b ∈ table := hSperm.subset (hab_sub.subset (by simp))
        rcases lt_or_gt_of_ne hab_ne with h | h
        · exact Or.inr ⟨heq, h⟩
        · have hpairT : [b, a].Sublist table :=
            pair_sublist_of_pairwise (fun _ _ h1 h2 => absurd h1 (lt_asymm h2))
              hcatS hbT haT h
          have hpairS : [b, a].Sublist (table.insertionSort (distLe (lastComp path))) :=
            List.pair_sublist_insertionSort (Nat.le_of_eq heq.symm) hpairT
          exact absurd (pair_sublist_nodup hnodupS hab_sub hpairS) hab_ne
    rw [suggestions]
    exact List.Pairwise.sublist (List.takeWhile_sublist _) hSP

theorem run_suggestions_ranking_witness :
    ((["m::bar", "n::zzzzzzzz", "p::foo1"] : List String).Pairwise
        (fun a b => a.data < b.data)) ∧
      ((suggestions "foo" ["m::bar", "n::zzzzzzzz", "p::foo1"]).Perm
          (List.filter (fun f => distTo (lastComp "foo") f ≤ 4)
            ["m::bar", "n::zzzzzzzz", "p::foo1"]) ∧
        (suggestions "foo" ["m::bar", "n::zzzzzzzz", "p::foo1"]).Pairwise (fun a b =>
          distTo (lastComp "foo") a < distTo (lastComp "foo") b ∨
            (distTo (lastComp "foo") a = distTo (lastComp "foo") b ∧ a < b))) :=
  ⟨by decide, run_suggestions_ranking "foo" ["m::bar", "n::zzzzzzzz", "p::foo1"] (by decide)⟩

mutual
theorem walkdir_length : ∀ t : DirEntry, (walkdir t).length = countEntries t
  | .file _ _ => rfl
  | .dir s e cs => by
      rw [walkdir, countEntries, List.length_cons, walkForest_length cs,
        Nat.add_comm]
theorem walkForest_length : ∀ f : Forest, (walkForest f).length = countForest f
  | .fnil => rfl
  | .fcons c cs => by
      rw [walkForest, List.length_append, walkdir_length c, walkForest_length cs,
        countForest]
end

theorem scan_directory_loop_ok (predicate : Option String → Option String → Bool) :
    ∀ (l : List DirEntry) (acc : List DirEntry),
      scan_directory_loop predicate (l.map .ok) acc =
        .ok (acc ++ l.filter (fun e => predicate e.stemOf e.extOf))
  | [], acc => by simp [scan_directory_loop]
  | e :: l, acc => by
      rw [List.map_cons, scan_directory_loop, scan_directory_loop_ok predicate l]
      cases hp : predicate e.stemOf e.extOf
      · simp [List.filter_cons, hp]
      · simp [List.filter_cons, hp]

/-- C6 (amended): discovery over an existing root returns exactly those
walked entries — regular files and directories alike, the root included —
for which the predicate holds on (stem, extension), in traversal order;
the traversal visits every entry exactly once, and absent components are
passed to the predicate as `none` rather than failing the traversal. -/
theorem scan_directory_matching_entries (t : DirEntry)
    (predicate : Option String → Option String → Bool) :
    scan_directory (rootEntries (some t)) predicate =
        .ok ((walkdir t).filter (fun e => predicate e.stemOf e.extOf)) ∧
      (walkdir t).length = countEntries t := by
  constructor
  · rw [scan_directory, rootEntries, scan_directory_loop_ok predicate (walkdir t) [],
      List.nil_append]
  · exact walkdir_length t

/-- C6, counterexample to the claim as stated: over a root containing a
directory named `d.s`, discovery with the predicate "extension is `s`"
returns that directory, whereas the regular files satisfying the predicate
are none — the output is not the set of matching regular files. -/
theorem scan_directory_regular_files_counterexample :
    ¬ (scan_directory (rootEntries (some exTree)) (fun _ e => e == some "s") =
        .ok ((walkdir exTree).filter
          (fun e => e.isFile && (e.extOf == some "s")))) :=
  fun h => List.noConfusion (Except.ok.inj h)

/-- C7: after merging the two discovery passes, canonicalizing (except on
Windows), sorting and deduplicating, the result is strictly sorted with no
duplicates, contains exactly the canonical forms of the traversal paths,
and two traversal paths with the same canonical form appear exactly once;
on Windows the paths are kept as traversed. -/
theorem project_canonical_merge (canon : String → String)
    (primary secondary : List String) :
    (project_post false canon primary secondary).Pairwise (· < ·) ∧
      (∀ x, x ∈ project_post false canon primary secondary ↔
        ∃ p ∈ primary ++ secondary, canon p = x) ∧
      (∀ p ∈ primary ++ secondary,
        (project_post false canon primary secondary).count (canon p) = 1) ∧
      (∀ x, x ∈ project_post true canon primary secondary ↔ x ∈ primary ++ secondary) := by
  have hmem : ∀ (l : List String) (x : String), x ∈ dedupAdj (sortStr l) ↔ x ∈ l :=
    fun l x => (mem_dedupAdj x (sortStr l)).trans (sortStr_perm l).mem_iff
  have hpw : (project_post false canon primary secondary).Pairwise (· < ·) := by
    rw [project_post]
    exact dedupAdj_pairwise (sortStr_sorted _)
  refine ⟨hpw, fun x => ?_, fun p hp => ?_, fun x => ?_⟩
  · rw [project_post, if_neg (by simp), hmem, List.mem_map]
  · refine List.count_eq_one_of_mem (hpw.imp (fun h => ne_of_lt h)) ?_
    rw [project_post, if_neg (by simp), hmem]
    exact List.mem_map_of_mem canon hp
  · rw [project_post, if_pos rfl, hmem]

theorem project_canonical_merge_witness :
    ("./a" ∈ ["./a"] ++ ["/r/a"]) ∧
      (project_post false exCanon ["./a"] ["/r/a"]).count (exCanon "./a") = 1 :=
  ⟨by decide, (project_canonical_merge exCanon ["./a"] ["/r/a"]).2.2.1 "./a" (by decide)⟩

theorem parse_files_loop_vanished {α ρ τ : Type} (fexists : α → Bool)
    (parse_one : α → ParseResult ρ τ) (f : α) (post : List α)
    (hf : fexists f = false) :
    ∀ pre : List α,
      (∀ g ∈ pre, fexists g = true ∧ ∃ tbl, parse_one g = .NotFound tbl) →
      ∀ acc, parse_files_loop fexists parse_one (pre ++ f :: post) acc =
        .error "path does not exist"
  | [], _, acc => by
      simp [parse_files_loop, hf]
  | g :: gs, hpre, acc => by
      have hg := hpre g (List.mem_cons_self g gs)
      obtain ⟨tbl, htbl⟩ := hg.2
      simp only [List.cons_append, parse_files_loop, hg.1, if_true, htbl]
      exact parse_files_loop_vanished fexists parse_one f post hf gs
        (fun x hx => hpre x (List.mem_cons_of_mem g hx)) (acc ++ tbl)

/-- C8: a nonexistent output root at discovery time makes discovery abort
with a fatal error, and a file that vanished between discovery and parse
makes that resolution invocation abort with a fatal error; in neither case
is a recoverable (`ok`) outcome produced. -/
theorem fatal_error_handling {α ρ τ : Type} (fexists : α → Bool)
    (parse_one : α → ParseResult ρ τ) :
    (∀ predicate, scan_directory (rootEntries none) predicate =
        .error "failed to iterate over the directory") ∧
      (∀ (pre : List α) (f : α) (post : List α),
        (∀ g ∈ pre, fexists g = true ∧ ∃ tbl, parse_one g = .NotFound tbl) →
        fexists f = false →
        parse_files fexists parse_one (pre ++ f :: post) =
          .error "path does not exist") := by
  constructor
  · intro predicate
    rfl
  · intro pre f post hpre hf
    exact parse_files_loop_vanished fexists parse_one f post hf pre hpre []

theorem fatal_error_handling_witness :
    scan_directory (rootEntries none) (fun _ _ => true) =
        .error "failed to iterate over the directory" ∧
      parse_files (fun _ => false) exParse [0] = .error "path does not exist" :=
  ⟨(fatal_error_handling (fun _ => (false : Bool)) exParse).1 (fun _ _ => true),
    (fatal_error_handling (fun _ => (false : Bool)) exParse).2 [] 0 []
      (fun g hg => absurd hg (List.not_mem_nil g)) rfl⟩

/-- C9: discovery post-processing is deterministic in the traversal order:
two runs whose passes visit the same path sets, in any orders, produce the
same final sorted, deduplicated list. -/
theorem discovery_idempotent (windows : Bool) (canon : String → String)
    (p₁ s₁ p₂ s₂ : List String) (hp : p₁.Perm p₂) (hs : s₁.Perm s₂) :
    project_post windows canon p₁ s₁ = project_post windows canon p₂ s₂ := by
  have hm : (p₁ ++ s₁).Perm (p₂ ++ s₂) := hp.append hs
  cases windows
  · rw [project_post, project_post, if_neg (by simp), if_neg (by simp),
      sortStr_eq_of_perm (hm.map canon)]
  · rw [project_post, project_post, if_pos rfl, if_pos rfl, sortStr_eq_of_perm hm]

theorem discovery_idempotent_witness :
    project_post false exCanon ["./a", "./b"] ["/r/a"] =
      project_post false exCanon ["./b", "./a"] ["/r/a"] :=
  discovery_idempotent false exCanon ["./a", "./b"] ["/r/a"] ["./b", "./a"] ["/r/a"]
    (by decide) (by decide)

end CargoAsm
